import Mathlib

/-!
Verification of the bonded-stake accounting core (`modules/stake/types.go`).

The Go code is embedded shallowly: slices become `List`, structs become
structures, the package-level configuration globals `minValBond` and `maxVal`
become explicit parameters, and Go's `(value, error)` returns become pairs
with an `Option` error component.  Go range loops `for i, bv := range b` bind
`bv` to a *copy* of the element (Go spec, "For statements with range clause"),
so assignments to `bv`'s fields inside a loop body never reach the backing
slice; the embedding reflects exactly that observable behaviour and records
the discarded per-iteration computation separately where relevant.
-/

/-- Modelled from the spec: the exact decimal type (`Decimal`, defined outside
the excerpted files) is "a fixed-point (or arbitrary-precision rational) value
supporting add, multiply, comparison, equality, and integer truncation, with no
silent precision loss" (spec §3, §4.1).  We embed it as `Rat`. -/
abbrev Decimal := Rat

/-- Modelled from the spec: `IntPart()` "yields the integer floor, used only at
the final boundary when converting to the consensus engine's integer power
representation" (spec §4.1); for the nonnegative powers that reach it this is
truncation toward zero, which we take as `num / den` in `Int` T-division. -/
def Decimal.IntPart (q : Decimal) : Int :=
  q.num / (q.den : Int)

/-- Go's `uint64(·)` conversion applied to an `Int`, with wrap-around modulo
`2 ^ 64`. -/
def uint64Of (i : Int) : Nat :=
  (i % (2 ^ 64 : Int)).toNat

/-- Modelled from the spec: `sdk.Actor` is the external "opaque triple
(chain id: string, application id: string, address: byte sequence) with value
equality and a defined lexicographic ordering on the address component"
(spec §6).  Bytes are embedded as `Nat` values. -/
structure Actor where
  ChainID : String
  App : String
  Address : List Nat
deriving DecidableEq, Repr

/-- Modelled from the spec: `sdk.Actor.Equals` is value equality of the
identity triple (spec §6). -/
def Actor.Equals (a b : Actor) : Bool :=
  decide (a = b)

/-- `DelegateeBond` (types.go:19-26). -/
structure DelegateeBond where
  Delegatee : Actor
  Commission : Decimal
  ExchangeRate : Decimal
  TotalBondTokens : Decimal
  Account : Actor
  VotingPower : Decimal
deriving DecidableEq, Repr

/-- `abci.Validator`: the external consensus validator record, "an opaque
(public-key bytes, integer power) pair" (spec §6); `Power` is a `uint64`,
embedded as a `Nat` already reduced modulo `2 ^ 64`. -/
structure Validator where
  PubKey : List Nat
  Power : Nat
deriving DecidableEq, Repr

/-- `DelegateeBond.Validator` (types.go:29-34): pubkey is the delegatee
address, power is `uint64(VotingPower.IntPart())`. -/
def DelegateeBond.Validator (b : DelegateeBond) : Validator :=
  { PubKey := b.Delegatee.Address
  , Power := uint64Of b.VotingPower.IntPart }

/-- `DelegateeBonds` (types.go:39). -/
abbrev DelegateeBonds := List DelegateeBond

/-- Go's `bytes.Compare` restricted to the byte lists we use: lexicographic
comparison returning `-1`, `0` or `1`. -/
def bytesCompare : List Nat → List Nat → Int
  | [], [] => 0
  | [], _ :: _ => -1
  | _ :: _, [] => 1
  | a :: as, c :: cs =>
    if a < c then -1
    else if c < a then 1
    else bytesCompare as cs

/-- `DelegateeBonds.Less` (types.go:46-63).  The Go method takes indices and
reads only `b[i]` and `b[j]`; we embed the underlying element comparator:
descending voting power first, then on equal powers ascending chain id,
application id, and address bytes. -/
def DelegateeBond.Less (x y : DelegateeBond) : Bool :=
  let vp1 := x.VotingPower
  let vp2 := y.VotingPower
  let d1 := x.Delegatee
  let d2 := y.Delegatee
  if vp1 ≠ vp2 then decide (vp1 > vp2)
  else if d1.ChainID < d2.ChainID then true
  else if d1.ChainID > d2.ChainID then false
  else if d1.App < d2.App then true
  else if d1.App > d2.App then false
  else decide (bytesCompare d1.Address d2.Address = -1)

/-- Total comparator fed to the sort: `x` may precede `y` iff `y` is not
strictly `Less` than `x`. -/
def bondLe (x y : DelegateeBond) : Bool :=
  !(DelegateeBond.Less y x)

/-- `DelegateeBonds.Sort` (types.go:66-68): `sort.Sort` rearranges the slice
in place into some permutation sorted by `Less`; we model it with a merge
sort over `bondLe`.  On collections whose elements have pairwise distinct
sort keys (voting power plus identity triple) the `Less`-sorted permutation
is unique, so the model and `sort.Sort` agree exactly there. -/
def DelegateeBonds.Sort (b : DelegateeBonds) : DelegateeBonds :=
  b.mergeSort bondLe

/-- Body of the first range loop of `UpdateVotingPower` (types.go:75-82): the
value the iteration writes into its local copy `bv` — voting power recomputed
from the bond value with the minimum-bond floor applied.  The loop variable is
a copy, so this value is discarded at the end of each iteration and the
backing slice keeps its old fields. -/
def floorLoopBody (minValBond : Decimal) (bv : DelegateeBond) : DelegateeBond :=
  let vp := bv.TotalBondTokens * bv.ExchangeRate
  if vp < minValBond then { bv with VotingPower := 0 }
  else { bv with VotingPower := vp }

/-- Second range loop of `UpdateVotingPower` (types.go:86-92): accumulate
`VotingPower` of the entries at index `i ≤ maxVal`; for later entries the loop
assigns `Zero` to its local copy `bv`, which again never reaches the backing
slice, so those iterations contribute nothing observable. -/
def totalPowerLoop (maxVal : Nat) : Nat → Decimal → DelegateeBonds → Decimal
  | _, acc, [] => acc
  | i, acc, bv :: rest =>
    if i ≤ maxVal then totalPowerLoop maxVal (i + 1) (acc + bv.VotingPower) rest
    else totalPowerLoop maxVal (i + 1) acc rest

/-- `DelegateeBonds.UpdateVotingPower` (types.go:71-94).  Because both range
loops write only to per-iteration copies (see `floorLoopBody` and
`totalPowerLoop`), the function's observable effect is: sort the slice in
place by `Less`, and return the accumulated total.  `minValBond` and `maxVal`
are the package-level globals, passed explicitly; `minValBond` has no
observable influence since the loop that reads it discards its result.  The
result pair is (the backing collection after the call, totalPower). -/
def DelegateeBonds.UpdateVotingPower (minValBond : Decimal) (maxVal : Nat)
    (b : DelegateeBonds) : DelegateeBonds × Decimal :=
  let sorted := DelegateeBonds.Sort b
  (sorted, totalPowerLoop maxVal 0 0 sorted)

/-- `DelegateeBonds.GetValidators` (types.go:100-109): walk the collection,
stop at the first entry whose voting power equals zero, and emit the
`Validator` record of every entry seen before that.  `maxVal` only sizes the
initial capacity of the Go output slice (`make(..., 0, maxVal)`) and does not
bound the result. -/
def DelegateeBonds.GetValidators (b : DelegateeBonds) (maxVal : Nat) : List Validator :=
  match b with
  | [] => []
  | bv :: rest =>
    if bv.VotingPower = 0 then []
    else bv.Validator :: DelegateeBonds.GetValidators rest maxVal

/-- `getValidatorPower` (types.go:132-139): power of the first entry with the
matching public key, `0` when absent. -/
def getValidatorPower (set : List Validator) (pubKey : List Nat) : Nat :=
  match set with
  | [] => 0
  | validator :: rest =>
    if validator.PubKey = pubKey then validator.Power
    else getValidatorPower rest pubKey

/-- Loop of `ValidatorsDiff` (types.go:119-126): for each previous-set entry,
emit `(pubKey, currentPower)` when the power in the new set differs. -/
def diffLoop (new : List Validator) : List Validator → List Validator
  | [] => []
  | prev :: rest =>
    let currentPower := getValidatorPower new prev.PubKey
    if currentPower ≠ prev.Power then
      { PubKey := prev.PubKey, Power := currentPower } :: diffLoop new rest
    else diffLoop new rest

/-- `DelegateeBonds.ValidatorsDiff` (types.go:112-128). -/
def DelegateeBonds.ValidatorsDiff (b : DelegateeBonds) (previous : List Validator)
    (maxVal : Nat) : List Validator :=
  diffLoop (DelegateeBonds.GetValidators b maxVal) previous

/-- Loop of `DelegateeBonds.Get` (types.go:143-148), carrying the running Go
index `i`; on fall-through the Go function returns `0, nil`. -/
def getLoopDelegatee (delegatee : Actor) : Nat → DelegateeBonds → Nat × Option DelegateeBond
  | _, [] => (0, none)
  | i, bv :: rest =>
    if Actor.Equals bv.Delegatee delegatee then (i, some bv)
    else getLoopDelegatee delegatee (i + 1) rest

/-- `DelegateeBonds.Get` (types.go:142-149): linear scan; `(i, some bv)` on the
first identity match (Go returns `i, &bv`, a pointer to the loop copy whose
value equals the element), `(0, none)` when absent (Go returns `0, nil`). -/
def DelegateeBonds.Get (b : DelegateeBonds) (delegatee : Actor) : Nat × Option DelegateeBond :=
  getLoopDelegatee delegatee 0 b

/-- Error outcomes of `Remove` (types.go:155, 157), one per `fmt.Errorf`
message. -/
inductive RemoveErr
  | negativeElement
  | outOfUpperBound
deriving DecidableEq, Repr

/-- `DelegateeBonds.Remove` (types.go:152-161): out-of-range indices return
the collection unchanged with an error; otherwise the returned value is
`append(b[:i], b[i+1:]...)`, i.e. the list with the element at `i` removed. -/
def DelegateeBonds.Remove (b : DelegateeBonds) (i : Int) : DelegateeBonds × Option RemoveErr :=
  if i < 0 then (b, some RemoveErr.negativeElement)
  else if (b.length : Int) ≤ i then (b, some RemoveErr.outOfUpperBound)
  else (b.take i.toNat ++ b.drop (i.toNat + 1), none)

/-- `DelegatorBond` (types.go:167-170). -/
structure DelegatorBond where
  Delegatee : Actor
  BondTokens : Decimal
deriving DecidableEq, Repr

/-- `DelegatorBonds` (types.go:173). -/
abbrev DelegatorBonds := List DelegatorBond

/-- Loop of `DelegatorBonds.Get` (types.go:177-184): the Go code compares the
three identity fields explicitly (`bytes.Equal` on addresses, `==` on chain id
and app). -/
def getLoopDelegator (delegatee : Actor) : Nat → DelegatorBonds → Nat × Option DelegatorBond
  | _, [] => (0, none)
  | i, bv :: rest =>
    if bv.Delegatee.Address = delegatee.Address ∧ bv.Delegatee.ChainID = delegatee.ChainID ∧
        bv.Delegatee.App = delegatee.App then (i, some bv)
    else getLoopDelegator delegatee (i + 1) rest

/-- `DelegatorBonds.Get` (types.go:176-185). -/
def DelegatorBonds.Get (b : DelegatorBonds) (delegatee : Actor) : Nat × Option DelegatorBond :=
  getLoopDelegator delegatee 0 b

/-- `DelegatorBonds.Remove` (types.go:188-197), same shape as
`DelegateeBonds.Remove`. -/
def DelegatorBonds.Remove (b : DelegatorBonds) (i : Int) : DelegatorBonds × Option RemoveErr :=
  if i < 0 then (b, some RemoveErr.negativeElement)
  else if (b.length : Int) ≤ i then (b, some RemoveErr.outOfUpperBound)
  else (b.take i.toNat ++ b.drop (i.toNat + 1), none)

/-- Pointer targets reachable from `DelegateeBonds.Get`'s return in the Go
memory model: either a backing-slice element `&b[i]`, or the range-loop's
per-iteration copy variable `&bv`.  The source (types.go:145) returns `&bv`. -/
inductive BondPtr
  | elem (i : Nat)
  | iterVar
deriving DecidableEq, Repr

/-- Memory reachable through a `DelegateeBonds.Get` result pointer: the backing
collection plus the cell of the loop copy variable `bv`. -/
structure GetMem where
  coll : DelegateeBonds
  iterVar : Option DelegateeBond
deriving DecidableEq, Repr

/-- Store through a `BondPtr`: writing `&b[i]` updates the backing collection,
writing `&bv` updates only the copy cell. -/
def writeBondPtr (m : GetMem) (p : BondPtr) (v : DelegateeBond) : GetMem :=
  match p with
  | BondPtr.elem i => { m with coll := m.coll.set i v }
  | BondPtr.iterVar => { m with iterVar := some v }

/-- Loop of `DelegateeBonds.Get` in the pointer model: on a match the Go code
executes `return i, &bv`, i.e. hands out the address of the loop copy, never
`&b[i]`. -/
def getPtrLoop (delegatee : Actor) : Nat → DelegateeBonds → Nat × Option BondPtr × Option DelegateeBond
  | _, [] => (0, none, none)
  | i, bv :: rest =>
    if Actor.Equals bv.Delegatee delegatee then (i, some BondPtr.iterVar, some bv)
    else getPtrLoop delegatee (i + 1) rest

/-- `DelegateeBonds.Get` in the pointer model: result memory, returned index,
and returned pointer (`none` embeds Go's `nil`). -/
def DelegateeBonds.GetMemModel (b : DelegateeBonds) (delegatee : Actor) :
    GetMem × Nat × Option BondPtr :=
  let r := getPtrLoop delegatee 0 b
  ({ coll := b, iterVar := r.2.2 }, r.1, r.2.1)

/-! ### Order theory for the `Less` comparator -/

lemma bytesCompare_self (x : List Nat) : bytesCompare x x = 0 := by
  induction x with
  | nil => rfl
  | cons a as ih => simp [bytesCompare, ih]

lemma bytesCompare_eq_zero_iff (x y : List Nat) : bytesCompare x y = 0 ↔ x = y := by
  induction x generalizing y with
  | nil => cases y <;> simp [bytesCompare]
  | cons a as ih =>
    cases y with
    | nil => simp [bytesCompare]
    | cons c cs =>
      rcases Nat.lt_trichotomy a c with h | h | h
      · simp [bytesCompare, h, Nat.ne_of_lt h]
      · subst h
        simp [bytesCompare, ih]
      · simp [bytesCompare, h, Nat.lt_asymm h, (Nat.ne_of_lt h).symm]

lemma bytesCompare_swap (x y : List Nat) : bytesCompare y x = -bytesCompare x y := by
  induction x generalizing y with
  | nil => cases y <;> simp [bytesCompare]
  | cons a as ih =>
    cases y with
    | nil => simp [bytesCompare]
    | cons c cs =>
      rcases Nat.lt_trichotomy a c with h | h | h
      · simp [bytesCompare, h, Nat.lt_asymm h]
      · subst h
        simp [bytesCompare, ih]
      · simp [bytesCompare, h, Nat.lt_asymm h]

lemma bytesCompare_cases (x y : List Nat) :
    bytesCompare x y = -1 ∨ bytesCompare x y = 0 ∨ bytesCompare x y = 1 := by
  induction x generalizing y with
  | nil => cases y <;> simp [bytesCompare]
  | cons a as ih =>
    cases y with
    | nil => simp [bytesCompare]
    | cons c cs =>
      by_cases h1 : a < c
      · simp [bytesCompare, h1]
      · by_cases h2 : c < a
        · simp [bytesCompare, h1, h2]
        · simpa [bytesCompare, h1, h2] using ih cs

lemma bytesCompare_trans (x y z : List Nat) :
    bytesCompare x y = -1 → bytesCompare y z = -1 → bytesCompare x z = -1 := by
  induction x generalizing y z with
  | nil =>
    cases y with
    | nil => simp [bytesCompare]
    | cons c cs =>
      cases z with
      | nil => simp [bytesCompare]
      | cons e es => simp [bytesCompare]
  | cons a as ih =>
    cases y with
    | nil => simp [bytesCompare]
    | cons c cs =>
      cases z with
      | nil => simp [bytesCompare]
      | cons e es =>
        intro h1 h2
        rcases Nat.lt_trichotomy a c with hac | hac | hac
        · rcases Nat.lt_trichotomy c e with hce | hce | hce
          · simp [bytesCompare, Nat.lt_trans hac hce]
          · subst hce
            simp [bytesCompare, hac]
          · exfalso
            simp [bytesCompare, Nat.lt_asymm hce, hce] at h2
        · subst hac
          rcases Nat.lt_trichotomy a e with hae | hae | hae
          · simp [bytesCompare, hae]
          · subst hae
            simp only [bytesCompare, lt_irrefl, if_false] at h1 h2 ⊢
            exact ih cs es h1 h2
          · exfalso
            simp [bytesCompare, Nat.lt_asymm hae, hae] at h2
        · exfalso
          simp [bytesCompare, Nat.lt_asymm hac, hac] at h1

lemma bytesCompare_neg_iff_lex (x y : List Nat) :
    bytesCompare x y = -1 ↔ List.Lex (· < ·) x y := by
  induction x generalizing y with
  | nil =>
    cases y with
    | nil =>
      simp only [bytesCompare]
      constructor
      · intro h
        omega
      · intro h
        cases h
    | cons c cs =>
      simp only [bytesCompare]
      exact ⟨fun _ => List.Lex.nil, fun _ => trivial⟩
  | cons a as ih =>
    cases y with
    | nil =>
      simp only [bytesCompare]
      constructor
      · intro h
        omega
      · intro h
        cases h
    | cons c cs =>
      rcases Nat.lt_trichotomy a c with h | h | h
      · simp only [bytesCompare, h, if_true]
        exact ⟨fun _ => List.Lex.rel h, fun _ => trivial⟩
      · subst h
        simp only [bytesCompare, lt_irrefl, if_false]
        constructor
        · intro hbc
          exact List.Lex.cons ((ih cs).mp hbc)
        · intro hlex
          cases hlex with
          | cons h' => exact (ih cs).mpr h'
          | rel h' => exact absurd h' (lt_irrefl a)
      · simp only [bytesCompare, Nat.lt_asymm h, if_false, h, if_true]
        constructor
        · intro h'
          omega
        · intro hlex
          cases hlex with
          | cons h' => exact absurd rfl (Nat.ne_of_lt h)
          | rel h' => exact absurd h' (Nat.lt_asymm h)

/-- Identity order used by `Less` on equal voting powers: ascending chain id,
then application id, then address bytes. -/
def actorLt (a b : Actor) : Prop :=
  a.ChainID < b.ChainID ∨
    (a.ChainID = b.ChainID ∧
      (a.App < b.App ∨ (a.App = b.App ∧ bytesCompare a.Address b.Address = -1)))

lemma actorLt_irrefl (a : Actor) : ¬ actorLt a a := by
  simp [actorLt, bytesCompare_self]

lemma actorLt_trans {a b c : Actor} (h1 : actorLt a b) (h2 : actorLt b c) : actorLt a c := by
  rcases h1 with h1 | ⟨e1, h1⟩ <;> rcases h2 with h2 | ⟨e2, h2⟩
  · exact Or.inl (lt_trans h1 h2)
  · exact Or.inl (e2 ▸ h1)
  · exact Or.inl (e1 ▸ h2)
  · refine Or.inr ⟨e1.trans e2, ?_⟩
    rcases h1 with h1 | ⟨f1, h1⟩ <;> rcases h2 with h2 | ⟨f2, h2⟩
    · exact Or.inl (lt_trans h1 h2)
    · exact Or.inl (f2 ▸ h1)
    · exact Or.inl (f1 ▸ h2)
    · exact Or.inr ⟨f1.trans f2, bytesCompare_trans _ _ _ h1 h2⟩

lemma actorLt_asymm {a b : Actor} (h1 : actorLt a b) (h2 : actorLt b a) : False :=
  actorLt_irrefl a (actorLt_trans h1 h2)

lemma actorLt_trichotomy (a b : Actor) : actorLt a b ∨ a = b ∨ actorLt b a := by
  rcases lt_trichotomy a.ChainID b.ChainID with h | h | h
  · exact Or.inl (Or.inl h)
  · rcases lt_trichotomy a.App b.App with h2 | h2 | h2
    · exact Or.inl (Or.inr ⟨h, Or.inl h2⟩)
    · rcases bytesCompare_cases a.Address b.Address with h3 | h3 | h3
      · exact Or.inl (Or.inr ⟨h, Or.inr ⟨h2, h3⟩⟩)
      · refine Or.inr (Or.inl ?_)
        have h4 := (bytesCompare_eq_zero_iff _ _).mp h3
        cases a
        cases b
        simp_all
      · refine Or.inr (Or.inr (Or.inr ⟨h.symm, Or.inr ⟨h2.symm, ?_⟩⟩))
        have h5 := bytesCompare_swap a.Address b.Address
        omega
    · exact Or.inr (Or.inr (Or.inr ⟨h.symm, Or.inl h2⟩))
  · exact Or.inr (Or.inr (Or.inl h))

/-- Propositional reading of `DelegateeBond.Less`: strictly greater voting
power, or equal voting power and strictly smaller identity. -/
def lessProp (x y : DelegateeBond) : Prop :=
  y.VotingPower < x.VotingPower ∨
    (x.VotingPower = y.VotingPower ∧ actorLt x.Delegatee y.Delegatee)

lemma less_eq_true_iff (x y : DelegateeBond) :
    DelegateeBond.Less x y = true ↔ lessProp x y := by
  unfold DelegateeBond.Less lessProp
  by_cases hvp : x.VotingPower = y.VotingPower
  · rcases lt_trichotomy x.Delegatee.ChainID y.Delegatee.ChainID with h | h | h
    · simp [hvp, h, actorLt]
    · rcases lt_trichotomy x.Delegatee.App y.Delegatee.App with h2 | h2 | h2
      · simp [hvp, h, h2, actorLt, lt_irrefl]
      · simp [hvp, h, h2, actorLt, lt_irrefl]
      · simp [hvp, h, h2, actorLt, lt_irrefl, lt_asymm h2, (ne_of_gt h2)]
    · simp [hvp, h, actorLt, lt_asymm h, lt_irrefl, (ne_of_gt h)]
  · rcases lt_trichotomy x.VotingPower y.VotingPower with h | h | h
    · simp [hvp, h, lt_asymm h]
    · exact absurd h hvp
    · simp [hvp, h]

lemma less_eq_false_iff (x y : DelegateeBond) :
    DelegateeBond.Less x y = false ↔ ¬ lessProp x y := by
  rw [← less_eq_true_iff]
  cases h : DelegateeBond.Less x y <;> simp [h]

lemma lessProp_asymm {x y : DelegateeBond} (h1 : lessProp x y) (h2 : lessProp y x) : False := by
  rcases h1 with h1 | ⟨e1, h1⟩ <;> rcases h2 with h2 | ⟨e2, h2⟩
  · exact lt_asymm h1 h2
  · exact (ne_of_gt h1) e2.symm
  · exact (ne_of_gt h2) e1.symm
  · exact actorLt_asymm h1 h2

lemma lessProp_negtrans {a b c : DelegateeBond}
    (h1 : ¬ lessProp b a) (h2 : ¬ lessProp c b) : ¬ lessProp c a := by
  intro h3
  have hba : b.VotingPower ≤ a.VotingPower := by
    by_contra hc
    exact h1 (Or.inl (lt_of_not_le hc))
  have hcb : c.VotingPower ≤ b.VotingPower := by
    by_contra hc
    exact h2 (Or.inl (lt_of_not_le hc))
  rcases h3 with h3 | ⟨e3, h3⟩
  · exact absurd h3 (not_lt_of_le (le_trans hcb hba))
  · have ecb : c.VotingPower = b.VotingPower := by
      refine le_antisymm hcb ?_
      rw [e3]
      exact hba
    have eba : b.VotingPower = a.VotingPower := ecb.symm.trans e3
    rcases actorLt_trichotomy c.Delegatee b.Delegatee with h4 | h4 | h4
    · exact h2 (Or.inr ⟨ecb, h4⟩)
    · exact h1 (Or.inr ⟨eba, h4 ▸ h3⟩)
    · exact h1 (Or.inr ⟨eba, actorLt_trans h4 h3⟩)

lemma bondLe_eq_true_iff (x y : DelegateeBond) :
    bondLe x y = true ↔ ¬ lessProp y x := by
  unfold bondLe
  rw [Bool.not_eq_true']
  exact less_eq_false_iff y x

lemma bondLe_trans (a b c : DelegateeBond) :
    bondLe a b = true → bondLe b c = true → bondLe a c = true := by
  rw [bondLe_eq_true_iff, bondLe_eq_true_iff, bondLe_eq_true_iff]
  exact fun h1 h2 => lessProp_negtrans h1 h2

lemma bondLe_total (a b : DelegateeBond) : (bondLe a b || bondLe b a) = true := by
  rw [Bool.or_eq_true, bondLe_eq_true_iff, bondLe_eq_true_iff]
  by_cases h : lessProp b a
  · exact Or.inr (fun h2 => lessProp_asymm h2 h)
  · exact Or.inl h

lemma sort_pairwise (b : DelegateeBonds) :
    (DelegateeBonds.Sort b).Pairwise (fun x y => DelegateeBond.Less y x = false) := by
  have h := @List.sorted_mergeSort DelegateeBond bondLe bondLe_trans bondLe_total b
  refine h.imp ?_
  intro x y hxy
  have := (bondLe_eq_true_iff x y).mp hxy
  rw [less_eq_false_iff]
  exact this

lemma sort_perm (b : DelegateeBonds) : (DelegateeBonds.Sort b).Perm b :=
  List.mergeSort_perm b bondLe

lemma sort_vp_monotone (b : DelegateeBonds) :
    (DelegateeBonds.Sort b).Pairwise (fun x y => y.VotingPower ≤ x.VotingPower) := by
  refine (sort_pairwise b).imp ?_
  intro x y h
  have hn : ¬ lessProp y x := (less_eq_false_iff y x).mp h
  by_contra hc
  exact hn (Or.inl (lt_of_not_le hc))

/-! ### Characterization lemmas for the collection operations -/

lemma diffLoop_eq_filterMap (new previous : List Validator) :
    diffLoop new previous =
      previous.filterMap (fun prev =>
        if getValidatorPower new prev.PubKey ≠ prev.Power then
          some { PubKey := prev.PubKey, Power := getValidatorPower new prev.PubKey }
        else none) := by
  induction previous with
  | nil => rfl
  | cons p rest ih =>
    by_cases h : getValidatorPower new p.PubKey ≠ p.Power
    · simp [diffLoop, h, ih]
    · simp [diffLoop, h, ih]

lemma getValidators_eq_takeWhile (b : DelegateeBonds) (maxVal : Nat) :
    DelegateeBonds.GetValidators b maxVal =
      (b.takeWhile (fun bv => !(decide (bv.VotingPower = 0)))).map DelegateeBond.Validator := by
  induction b with
  | nil => rfl
  | cons bv rest ih =>
    by_cases h : bv.VotingPower = 0
    · simp [DelegateeBonds.GetValidators, List.takeWhile, h]
    · simp [DelegateeBonds.GetValidators, List.takeWhile, h, ih]

lemma getLoopDelegatee_spec (d : Actor) (k : Nat) (b : DelegateeBonds) :
    ((∀ x ∈ b, x.Delegatee ≠ d) ∧ getLoopDelegatee d k b = (0, none)) ∨
      (∃ n bv, b.get? n = some bv ∧ bv.Delegatee = d ∧
        (∀ j y, j < n → b.get? j = some y → y.Delegatee ≠ d) ∧
        getLoopDelegatee d k b = (k + n, some bv)) := by
  induction b generalizing k with
  | nil => exact Or.inl ⟨by simp, rfl⟩
  | cons bv rest ih =>
    by_cases h : bv.Delegatee = d
    · refine Or.inr ⟨0, bv, by simp, h, by simp, ?_⟩
      simp [getLoopDelegatee, Actor.Equals, h]
    · rcases ih (k + 1) with ⟨hall, heq⟩ | ⟨n, bv', h1, h2, h3, heq⟩
      · refine Or.inl ⟨?_, ?_⟩
        · intro x hx
          rcases List.mem_cons.mp hx with hx | hx
          · subst hx
            exact h
          · exact hall x hx
        · simp [getLoopDelegatee, Actor.Equals, h, heq]
      · refine Or.inr ⟨n + 1, bv', by simpa using h1, h2, ?_, ?_⟩
        · intro j y hj hy
          cases j with
          | zero =>
            simp only [List.get?] at hy
            cases hy
            exact h
          | succ j =>
            exact h3 j y (by omega) (by simpa using hy)
        · rw [show k + (n + 1) = (k + 1) + n by omega]
          simp [getLoopDelegatee, Actor.Equals, h, heq]

lemma getLoopDelegator_spec (d : Actor) (k : Nat) (b : DelegatorBonds) :
    ((∀ x ∈ b, x.Delegatee ≠ d) ∧ getLoopDelegator d k b = (0, none)) ∨
      (∃ n bv, b.get? n = some bv ∧ bv.Delegatee = d ∧
        (∀ j y, j < n → b.get? j = some y → y.Delegatee ≠ d) ∧
        getLoopDelegator d k b = (k + n, some bv)) := by
  induction b generalizing k with
  | nil => exact Or.inl ⟨by simp, rfl⟩
  | cons bv rest ih =>
    by_cases h : bv.Delegatee = d
    · refine Or.inr ⟨0, bv, by simp, h, by simp, ?_⟩
      have hc : bv.Delegatee.Address = d.Address ∧ bv.Delegatee.ChainID = d.ChainID ∧
          bv.Delegatee.App = d.App := by
        rw [h]
        exact ⟨rfl, rfl, rfl⟩
      simp [getLoopDelegator, hc]
    · have hc : ¬ (bv.Delegatee.Address = d.Address ∧ bv.Delegatee.ChainID = d.ChainID ∧
          bv.Delegatee.App = d.App) := by
        intro ⟨ha, hcid, happ⟩
        apply h
        have h4 := bv.Delegatee
        cases hbv : bv.Delegatee with
        | mk cid app addr =>
          cases d with
          | mk cid' app' addr' =>
            rw [hbv] at ha hcid happ
            simp_all
      rcases ih (k + 1) with ⟨hall, heq⟩ | ⟨n, bv', h1, h2, h3, heq⟩
      · refine Or.inl ⟨?_, ?_⟩
        · intro x hx
          rcases List.mem_cons.mp hx with hx | hx
          · subst hx
            exact h
          · exact hall x hx
        · simp [getLoopDelegator, hc, heq]
      · refine Or.inr ⟨n + 1, bv', by simpa using h1, h2, ?_, ?_⟩
        · intro j y hj hy
          cases j with
          | zero =>
            simp only [List.get?] at hy
            cases hy
            exact h
          | succ j =>
            exact h3 j y (by omega) (by simpa using hy)
        · rw [show k + (n + 1) = (k + 1) + n by omega]
          simp [getLoopDelegator, hc, heq]

lemma getPtrLoop_ptr (d : Actor) (k : Nat) (b : DelegateeBonds) (p : BondPtr) :
    (getPtrLoop d k b).2.1 = some p → p = BondPtr.iterVar := by
  induction b generalizing k with
  | nil => simp [getPtrLoop]
  | cons bv rest ih =>
    by_cases h : Actor.Equals bv.Delegatee d = true
    · simp [getPtrLoop, h]
      intro he
      exact he.symm
    · simp only [getPtrLoop, h, if_false, Bool.false_eq_true]
      exact ih (k + 1)

/-! ### Concrete fixtures used by counterexamples and witnesses -/

/-- Test actor with the given single-byte address and empty chain and app ids. -/
def mkActor (addr : Nat) : Actor :=
  { ChainID := "", App := "", Address := [addr] }

/-- Test bond: identity `mkActor addr`, exchange rate 1, the given token total
and stored voting power. -/
def mkBond (addr : Nat) (tokens vp : Decimal) : DelegateeBond :=
  { Delegatee := mkActor addr
  , Commission := 0
  , ExchangeRate := 1
  , TotalBondTokens := tokens
  , Account := mkActor (addr + 100)
  , VotingPower := vp }

/-! ### Claims -/

/-- C1: refuted on the code (source bug).  The claim says every candidate whose
bond value `TotalBondTokens * ExchangeRate` is below a positive floor has
`VotingPower = 0` in the backing collection after `UpdateVotingPower`.  With
floor `5 > 0` and a single candidate of bond value `1 * 1 = 1 < 5` whose stored
`VotingPower` is `7`, the call leaves `VotingPower = 7 ≠ 0`: the range loop at
types.go:75-82 assigns only to its per-iteration copy `bv`, so the floor is
never written back, while `floorLoopBody` shows the intended zeroed value. -/
theorem C1_floor_not_enforced :
    (0 : Decimal) < 5 ∧
    (mkBond 1 1 7).TotalBondTokens * (mkBond 1 1 7).ExchangeRate < 5 ∧
    (floorLoopBody 5 (mkBond 1 1 7)).VotingPower = 0 ∧
    (DelegateeBonds.UpdateVotingPower 5 2 [mkBond 1 1 7]).1.map DelegateeBond.VotingPower
      = [7] := by
  refine ⟨by norm_num, by norm_num [mkBond], by norm_num [floorLoopBody, mkBond], ?_⟩
  norm_num [DelegateeBonds.UpdateVotingPower, DelegateeBonds.Sort, List.mergeSort,
    totalPowerLoop, mkBond, mkActor]

/-- C2: refuted on the code (source bug).  Three candidates, all with stored
voting power and bond value at or above the floor `5`, and `maxVal = 1`: the
claim says exactly `1` candidate keeps nonzero voting power after
`UpdateVotingPower`, but the truncation branch (types.go:90) assigns `Zero`
only to the per-iteration copy, so all `3` candidates keep nonzero power in
the backing collection. -/
theorem C2_truncation_not_applied :
    ((DelegateeBonds.UpdateVotingPower 5 1
        [mkBond 1 30 30, mkBond 2 20 20, mkBond 3 10 10]).1.map DelegateeBond.VotingPower)
      = [30, 20, 10] ∧
    ((DelegateeBonds.UpdateVotingPower 5 1
        [mkBond 1 30 30, mkBond 2 20 20, mkBond 3 10 10]).1.countP
      (fun bv => !(decide (bv.VotingPower = 0)))) = 3 := by
  constructor
  · norm_num [DelegateeBonds.UpdateVotingPower, DelegateeBonds.Sort, List.mergeSort,
      List.merge, totalPowerLoop, bondLe, DelegateeBond.Less, mkBond, mkActor, bytesCompare]
  · norm_num [DelegateeBonds.UpdateVotingPower, DelegateeBonds.Sort, List.mergeSort,
      List.merge, totalPowerLoop, bondLe, DelegateeBond.Less, mkBond, mkActor, bytesCompare,
      List.countP_cons]

/-- C3: refuted on the code (source bug).  The spec's end-to-end scenario —
powers 30, 30, 10, floor 5, `maxVal = 2` — expects total active power 60 and
the power-10 candidate zeroed.  The code returns 70 (the second loop sums the
stored voting powers of ranks `0..maxVal` inclusive, i.e. maxVal+1 = 3
entries) and leaves the power-10 candidate at 10, because the truncation
write never reaches the backing collection. -/
theorem C3_end_to_end_mismatch :
    (DelegateeBonds.UpdateVotingPower 5 2
        [mkBond 3 10 10, mkBond 1 30 30, mkBond 2 30 30]).2 = 70 ∧
    ((DelegateeBonds.UpdateVotingPower 5 2
        [mkBond 3 10 10, mkBond 1 30 30, mkBond 2 30 30]).1.map DelegateeBond.VotingPower)
      = [30, 30, 10] := by
  constructor <;>
    norm_num [DelegateeBonds.UpdateVotingPower, DelegateeBonds.Sort, List.mergeSort,
      List.merge, totalPowerLoop, bondLe, DelegateeBond.Less, mkBond, mkActor, bytesCompare]

/-- C4: confirmed.  `Less` compares strictly greater voting power first and on
ties ascending identity (chain id, then app id, then address bytes
lexicographically); it is asymmetric; and after `UpdateVotingPower` the
backing collection is sorted so that no later element is `Less` than an
earlier one, hence voting powers are non-increasing along the collection. -/
theorem C4_less_order_and_sorted :
    (∀ x y : DelegateeBond,
      DelegateeBond.Less x y = true ↔
        (y.VotingPower < x.VotingPower ∨
          (x.VotingPower = y.VotingPower ∧
            (x.Delegatee.ChainID < y.Delegatee.ChainID ∨
              (x.Delegatee.ChainID = y.Delegatee.ChainID ∧
                (x.Delegatee.App < y.Delegatee.App ∨
                  (x.Delegatee.App = y.Delegatee.App ∧
                    List.Lex (· < ·) x.Delegatee.Address y.Delegatee.Address))))))) ∧
    (∀ x y : DelegateeBond, DelegateeBond.Less x y = true → DelegateeBond.Less y x = false) ∧
    (∀ (minValBond : Decimal) (maxVal : Nat) (b : DelegateeBonds),
      ((DelegateeBonds.UpdateVotingPower minValBond maxVal b).1.Pairwise
        (fun x y => DelegateeBond.Less y x = false)) ∧
      ((DelegateeBonds.UpdateVotingPower minValBond maxVal b).1.Pairwise
        (fun x y => y.VotingPower ≤ x.VotingPower))) := by
  refine ⟨?_, ?_, ?_⟩
  · intro x y
    rw [less_eq_true_iff]
    unfold lessProp actorLt
    rw [bytesCompare_neg_iff_lex]
  · intro x y h
    rw [less_eq_true_iff] at h
    rw [less_eq_false_iff]
    exact fun h2 => lessProp_asymm h2 h
  · intro minValBond maxVal b
    exact ⟨sort_pairwise b, sort_vp_monotone b⟩

/-- C4 witness: the asymmetry implication of `C4_less_order_and_sorted`
applied at a concrete pair of bonds with powers 30 and 20. -/
theorem C4_less_order_and_sorted_witness :
    DelegateeBond.Less (mkBond 2 20 20) (mkBond 1 30 30) = false :=
  C4_less_order_and_sorted.2.1 (mkBond 1 30 30) (mkBond 2 20 20) (by decide)

/-- C5: confirmed.  `ValidatorsDiff` equals the filter-map over the *previous*
set that emits `(pubKey, newPower)` exactly when the power of that key in the
freshly computed active set (0 when absent) differs from its previous power —
so unchanged previous entries emit nothing, and no key outside the previous
set is ever emitted.  The concrete removal case: previous `{([1],10),([2],5)}`
against a collection whose active set is `{([1],10)}` yields exactly
`{([2],0)}`. -/
theorem C5_diff_characterization :
    (∀ (b : DelegateeBonds) (previous : List Validator) (maxVal : Nat),
      DelegateeBonds.ValidatorsDiff b previous maxVal =
        previous.filterMap (fun prev =>
          if getValidatorPower (DelegateeBonds.GetValidators b maxVal) prev.PubKey
              ≠ prev.Power then
            some { PubKey := prev.PubKey
                 , Power := getValidatorPower (DelegateeBonds.GetValidators b maxVal) prev.PubKey }
          else none)) ∧
    DelegateeBonds.ValidatorsDiff [mkBond 1 10 10]
        [{ PubKey := [1], Power := 10 }, { PubKey := [2], Power := 5 }] 2
      = [{ PubKey := [2], Power := 0 }] := by
  constructor
  · intro b previous maxVal
    exact diffLoop_eq_filterMap (DelegateeBonds.GetValidators b maxVal) previous
  · norm_num [DelegateeBonds.ValidatorsDiff, DelegateeBonds.GetValidators, diffLoop,
      getValidatorPower, DelegateeBond.Validator, Decimal.IntPart, uint64Of, mkBond, mkActor]
    decide

/-- C6 counterexample: the claim bounds the result of `GetValidators(maxVal)`
by `maxVal` entries.  On the two-element collection with powers 5, 3 (sorted
descending) and `maxVal = 1`, the code returns 2 entries: the Go loop never
consults `maxVal` (it is only the initial capacity of the output slice). -/
theorem C6_maxval_cap_violated :
    ([mkBond 1 5 5, mkBond 2 3 3] : DelegateeBonds).Pairwise
      (fun x y => y.VotingPower ≤ x.VotingPower) ∧
    ¬ ((DelegateeBonds.GetValidators [mkBond 1 5 5, mkBond 2 3 3] 1).length ≤ 1) := by
  constructor
  · norm_num [mkBond]
  · norm_num [DelegateeBonds.GetValidators, mkBond, mkActor]

/-- C6 amended: for every collection, `GetValidators` returns the (public key,
power) records of the maximal leading segment of elements with nonzero voting
power — it stops at the first zero-power element — with no bound from
`maxVal`, which only pre-sizes the output buffer. -/
theorem C6_leading_nonzero_amended :
    ∀ (b : DelegateeBonds) (maxVal : Nat),
      DelegateeBonds.GetValidators b maxVal =
        (b.takeWhile (fun bv => !(decide (bv.VotingPower = 0)))).map DelegateeBond.Validator :=
  fun b maxVal => getValidators_eq_takeWhile b maxVal

/-- C7: confirmed.  `UpdateVotingPower` is a pure function of the input
collection (plus the configured floor and maximum), so two runs on
element-by-element equal collections return field-by-field identical
collections and equal totals. -/
theorem C7_update_deterministic :
    ∀ (minValBond : Decimal) (maxVal : Nat) (b1 b2 : DelegateeBonds),
      b1.length = b2.length →
      (∀ (i : Nat) (h1 : i < b1.length) (h2 : i < b2.length), b1.get ⟨i, h1⟩ = b2.get ⟨i, h2⟩) →
      (DelegateeBonds.UpdateVotingPower minValBond maxVal b1).1
        = (DelegateeBonds.UpdateVotingPower minValBond maxVal b2).1 ∧
      (DelegateeBonds.UpdateVotingPower minValBond maxVal b1).2
        = (DelegateeBonds.UpdateVotingPower minValBond maxVal b2).2 := by
  intro mv mx b1 b2 hlen hget
  have hb : b1 = b2 := List.ext_get hlen hget
  subst hb
  exact ⟨rfl, rfl⟩

/-- C7 witness: determinism applied at a concrete one-element collection. -/
theorem C7_update_deterministic_witness :
    (DelegateeBonds.UpdateVotingPower 5 2 [mkBond 1 30 30]).1
      = (DelegateeBonds.UpdateVotingPower 5 2 [mkBond 1 30 30]).1 ∧
    (DelegateeBonds.UpdateVotingPower 5 2 [mkBond 1 30 30]).2
      = (DelegateeBonds.UpdateVotingPower 5 2 [mkBond 1 30 30]).2 :=
  C7_update_deterministic 5 2 [mkBond 1 30 30] [mkBond 1 30 30] rfl (fun i h1 h2 => rfl)

/-- C8: confirmed.  For both collection types, `Remove` on a negative index or
an index at or past the length returns the collection unchanged with the
corresponding out-of-range error; on an in-range index it succeeds (no error)
and returns the list with exactly the element at that position removed and
the order of the rest preserved (`eraseIdx`, one element shorter); removing
index 0 from a 3-element collection yields elements 1 and 2 in order. -/
theorem C8_remove_bounds_and_order :
    (∀ (b : DelegateeBonds) (i : Int),
      (i < 0 → DelegateeBonds.Remove b i = (b, some RemoveErr.negativeElement)) ∧
      ((b.length : Int) ≤ i → DelegateeBonds.Remove b i = (b, some RemoveErr.outOfUpperBound)) ∧
      (0 ≤ i → i < (b.length : Int) →
        (DelegateeBonds.Remove b i).2 = none ∧
        (DelegateeBonds.Remove b i).1 = b.eraseIdx i.toNat ∧
        (DelegateeBonds.Remove b i).1.length + 1 = b.length)) ∧
    (∀ (b : DelegatorBonds) (i : Int),
      (i < 0 → DelegatorBonds.Remove b i = (b, some RemoveErr.negativeElement)) ∧
      ((b.length : Int) ≤ i → DelegatorBonds.Remove b i = (b, some RemoveErr.outOfUpperBound)) ∧
      (0 ≤ i → i < (b.length : Int) →
        (DelegatorBonds.Remove b i).2 = none ∧
        (DelegatorBonds.Remove b i).1 = b.eraseIdx i.toNat ∧
        (DelegatorBonds.Remove b i).1.length + 1 = b.length)) ∧
    (∀ x y z : DelegateeBond, DelegateeBonds.Remove [x, y, z] 0 = ([y, z], none)) := by
  refine ⟨?_, ?_, ?_⟩
  · intro b i
    refine ⟨?_, ?_, ?_⟩
    · intro h
      simp [DelegateeBonds.Remove, h]
    · intro h
      have h0 : ¬ i < 0 := by omega
      simp [DelegateeBonds.Remove, h0, h]
    · intro h0 h1
      have h2 : ¬ i < 0 := by omega
      have h3 : ¬ (b.length : Int) ≤ i := by omega
      have h4 : i.toNat < b.length := by omega
      refine ⟨?_, ?_, ?_⟩
      · simp [DelegateeBonds.Remove, h2, h3]
      · simp [DelegateeBonds.Remove, h2, h3, List.eraseIdx_eq_take_drop_succ]
      · simp only [DelegateeBonds.Remove, h2, if_false, h3, List.length_append,
          List.length_take, List.length_drop]
        omega
  · intro b i
    refine ⟨?_, ?_, ?_⟩
    · intro h
      simp [DelegatorBonds.Remove, h]
    · intro h
      have h0 : ¬ i < 0 := by omega
      simp [DelegatorBonds.Remove, h0, h]
    · intro h0 h1
      have h2 : ¬ i < 0 := by omega
      have h3 : ¬ (b.length : Int) ≤ i := by omega
      have h4 : i.toNat < b.length := by omega
      refine ⟨?_, ?_, ?_⟩
      · simp [DelegatorBonds.Remove, h2, h3]
      · simp [DelegatorBonds.Remove, h2, h3, List.eraseIdx_eq_take_drop_succ]
      · simp only [DelegatorBonds.Remove, h2, if_false, h3, List.length_append,
          List.length_take, List.length_drop]
        omega
  · intro x y z
    rfl

/-- C8 witness: the bounds and success cases of `C8_remove_bounds_and_order`
applied at concrete collections and indices. -/
theorem C8_remove_bounds_and_order_witness :
    DelegateeBonds.Remove [mkBond 1 5 5] (-1)
      = ([mkBond 1 5 5], some RemoveErr.negativeElement) ∧
    DelegateeBonds.Remove [mkBond 1 5 5] 1
      = ([mkBond 1 5 5], some RemoveErr.outOfUpperBound) ∧
    (DelegateeBonds.Remove [mkBond 1 5 5] 0).2 = none ∧
    DelegatorBonds.Remove ([] : DelegatorBonds) 0 = ([], some RemoveErr.outOfUpperBound) :=
  ⟨(C8_remove_bounds_and_order.1 [mkBond 1 5 5] (-1)).1 (by decide),
   (C8_remove_bounds_and_order.1 [mkBond 1 5 5] 1).2.1 (by decide),
   ((C8_remove_bounds_and_order.1 [mkBond 1 5 5] 0).2.2 (by decide) (by decide)).1,
   (C8_remove_bounds_and_order.2.1 ([] : DelegatorBonds) 0).2.1 (by decide)⟩

/-- C9: confirmed.  For both collection types, `Get` returns the index of the
first element with the requested identity together with a record equal to that
element, and the explicit not-found signal `(0, none)` when no element
matches; the `none` record is distinct from any legitimate match at index 0,
whose record component is a `some`. -/
theorem C9_get_first_match_or_none :
    (∀ (b : DelegateeBonds) (d : Actor),
      ((∀ x ∈ b, x.Delegatee ≠ d) → DelegateeBonds.Get b d = (0, none)) ∧
      ((∃ x ∈ b, x.Delegatee = d) → (DelegateeBonds.Get b d).2 ≠ none) ∧
      (∀ (i : Nat) (bv : DelegateeBond), DelegateeBonds.Get b d = (i, some bv) →
        b.get? i = some bv ∧ bv.Delegatee = d ∧
        ∀ j y, j < i → b.get? j = some y → y.Delegatee ≠ d)) ∧
    (∀ (b : DelegatorBonds) (d : Actor),
      ((∀ x ∈ b, x.Delegatee ≠ d) → DelegatorBonds.Get b d = (0, none)) ∧
      ((∃ x ∈ b, x.Delegatee = d) → (DelegatorBonds.Get b d).2 ≠ none) ∧
      (∀ (i : Nat) (bv : DelegatorBond), DelegatorBonds.Get b d = (i, some bv) →
        b.get? i = some bv ∧ bv.Delegatee = d ∧
        ∀ j y, j < i → b.get? j = some y → y.Delegatee ≠ d)) := by
  constructor
  · intro b d
    rcases getLoopDelegatee_spec d 0 b with ⟨hall, heq⟩ | ⟨n, bv', h1, h2, h3, heq⟩
    · refine ⟨fun _ => heq, ?_, ?_⟩
      · rintro ⟨x, hx, he⟩
        exact absurd he (hall x hx)
      · intro i bv hgot
        have hgot' : getLoopDelegatee d 0 b = (i, some bv) := hgot
        rw [heq] at hgot'
        simp at hgot'
    · refine ⟨?_, ?_, ?_⟩
      · intro hall
        exact absurd h2 (hall bv' (List.get?_mem h1))
      · intro _
        have : DelegateeBonds.Get b d = (0 + n, some bv') := heq
        rw [this]
        simp
      · intro i bv hgot
        have hgot' : getLoopDelegatee d 0 b = (i, some bv) := hgot
        have hcomb : ((0 + n : Nat), (some bv' : Option DelegateeBond)) = (i, some bv) :=
          heq.symm.trans hgot'
        rw [Prod.mk.injEq] at hcomb
        obtain ⟨hi, hbv⟩ := hcomb
        rw [Option.some.injEq] at hbv
        subst hbv
        have hi' : n = i := by omega
        subst hi'
        exact ⟨h1, h2, fun j y hj hy => h3 j y hj hy⟩
  · intro b d
    rcases getLoopDelegator_spec d 0 b with ⟨hall, heq⟩ | ⟨n, bv', h1, h2, h3, heq⟩
    · refine ⟨fun _ => heq, ?_, ?_⟩
      · rintro ⟨x, hx, he⟩
        exact absurd he (hall x hx)
      · intro i bv hgot
        have hgot' : getLoopDelegator d 0 b = (i, some bv) := hgot
        rw [heq] at hgot'
        simp at hgot'
    · refine ⟨?_, ?_, ?_⟩
      · intro hall
        exact absurd h2 (hall bv' (List.get?_mem h1))
      · intro _
        have : DelegatorBonds.Get b d = (0 + n, some bv') := heq
        rw [this]
        simp
      · intro i bv hgot
        have hgot' : getLoopDelegator d 0 b = (i, some bv) := hgot
        have hcomb : ((0 + n : Nat), (some bv' : Option DelegatorBond)) = (i, some bv) :=
          heq.symm.trans hgot'
        rw [Prod.mk.injEq] at hcomb
        obtain ⟨hi, hbv⟩ := hcomb
        rw [Option.some.injEq] at hbv
        subst hbv
        have hi' : n = i := by omega
        subst hi'
        exact ⟨h1, h2, fun j y hj hy => h3 j y hj hy⟩

/-- C9 witness: lookup on an empty collection yields the not-found signal, a
present identity yields a `some` record, and a match at index 0 is reported
with its record. -/
theorem C9_get_first_match_or_none_witness :
    DelegateeBonds.Get ([] : DelegateeBonds) (mkActor 1) = (0, none) ∧
    (DelegateeBonds.Get [mkBond 1 5 5] (mkActor 1)).2 ≠ none ∧
    ([mkBond 1 5 5] : DelegateeBonds).get? 0 = some (mkBond 1 5 5) ∧
    DelegatorBonds.Get ([] : DelegatorBonds) (mkActor 1) = (0, none) :=
  ⟨(C9_get_first_match_or_none.1 ([] : DelegateeBonds) (mkActor 1)).1 (by simp),
   (C9_get_first_match_or_none.1 [mkBond 1 5 5] (mkActor 1)).2.1
     ⟨mkBond 1 5 5, by simp, rfl⟩,
   ((C9_get_first_match_or_none.1 [mkBond 1 5 5] (mkActor 1)).2.2 0 (mkBond 1 5 5) rfl).1,
   (C9_get_first_match_or_none.2 ([] : DelegatorBonds) (mkActor 1)).1 (by simp)⟩

/-- C10: confirmed.  In the pointer model, the record pointer handed back by a
successful `Get` is always the address of the range loop's per-iteration copy
(`&bv`, types.go:145), never of a backing element, so a store through it
changes only the copy cell and every element of the original collection is
unchanged. -/
theorem C10_get_pointer_is_fresh_copy :
    ∀ (b : DelegateeBonds) (d : Actor) (m : GetMem) (i : Nat) (p : BondPtr) (v : DelegateeBond),
      DelegateeBonds.GetMemModel b d = (m, i, some p) →
      (writeBondPtr m p v).coll = b := by
  intro b d m i p v h
  have h' : (({ coll := b, iterVar := (getPtrLoop d 0 b).2.2 } : GetMem),
      (getPtrLoop d 0 b).1, (getPtrLoop d 0 b).2.1) = (m, i, some p) := h
  rw [Prod.mk.injEq, Prod.mk.injEq] at h'
  obtain ⟨hm, _, hp⟩ := h'
  have hiter : p = BondPtr.iterVar := getPtrLoop_ptr d 0 b p hp
  subst hiter
  rw [← hm]
  rfl

/-- C10 witness: storing through the pointer returned by `Get` on a singleton
collection leaves the collection unchanged. -/
theorem C10_get_pointer_is_fresh_copy_witness :
    (writeBondPtr { coll := [mkBond 1 30 30], iterVar := some (mkBond 1 30 30) }
      BondPtr.iterVar (mkBond 2 5 5)).coll = [mkBond 1 30 30] :=
  C10_get_pointer_is_fresh_copy [mkBond 1 30 30] (mkActor 1)
    { coll := [mkBond 1 30 30], iterVar := some (mkBond 1 30 30) } 0 BondPtr.iterVar
    (mkBond 2 5 5) rfl
